import Mathlib

/-!
Verification of the segment tree from `src/data_structure/segment_tree.rs`.

The Rust structure stores a complete binary tree over a flat buffer
`node : Vec<T>` of length `2 * n`, where `n` (the capacity) is the least
power of two that is at least the requested logical size.  Node `1` is the
root, node `i` has children `2*i` and `2*i + 1`, and the leaf for logical
position `p` lives at flat index `n + p`.

Embedding conventions:
* the buffer is modelled as a total function `node : Nat → T`; the live
  region is `[0, 2*n)` and every statement only ever constrains indices in
  that region;
* `assert!` failures (Rust panics) are modelled by `Option`: an operation
  whose assertion fails returns `none` and produces no new tree;
* closures `Op: Fn(T, T) -> T` and `Id: Fn() -> T` are modelled by a stored
  binary function `op` and a stored value `id`.
-/

universe u

/-- Rust `usize::next_power_of_two`, as called by `SegmentTree::new`:
the least power of two that is `≥ n` (and `1` for `n = 0`). -/
def nextPow2 (n : Nat) : Nat :=
  if h : n ≤ 1 then 1 else 2 * nextPow2 ((n + 1) / 2)
termination_by n
decreasing_by omega

/-- The struct `SegmentTree<T, Op, Id>`: capacity `n`, flat buffer `node`
(conceptually of length `2 * n`), the combining operation `op` and the
identity value `id`. -/
structure SegmentTree (T : Type u) where
  n : Nat
  node : Nat → T
  op : T → T → T
  id : T

namespace SegmentTree

variable {T : Type u}

/-- `SegmentTree::new(n, op, id)`: round the size up to a power of two and
fill both halves of the buffer with the identity. -/
def new (sz : Nat) (op : T → T → T) (idv : T) : SegmentTree T :=
  { n := nextPow2 sz, node := fun _ => idv, op := op, id := idv }

/-- The first loop of `SegmentTree::from_slice`:
`for (i, &x) in slice.iter().enumerate() { tree.node[i + tree.n] = x; }`. -/
def writeLeaves (base : Nat) (s : List T) (nd : Nat → T) : Nat → T :=
  s.enum.foldl (fun nd p => Function.update nd (p.1 + base) p.2) nd

/-- The second loop of `SegmentTree::from_slice`, processing flat indices
`m, m-1, ..., 1`:
`for i in (1..tree.n).rev() { tree.node[i] = op(node[i << 1], node[i << 1 | 1]); }`. -/
def buildDown (op : T → T → T) (nd : Nat → T) : Nat → Nat → T
  | 0 => nd
  | m + 1 =>
    buildDown op (Function.update nd (m + 1) (op (nd (2 * (m + 1))) (nd (2 * (m + 1) + 1)))) m

/-- `SegmentTree::from_slice(slice, op, id)`: build the empty tree of the
slice's length, copy the slice into the leaves, then fill the internal nodes
bottom-up. -/
def from_slice (s : List T) (op : T → T → T) (idv : T) : SegmentTree T :=
  { new s.length op idv with
    node := buildDown op (writeLeaves (new s.length op idv).n s (new s.length op idv).node)
      ((new s.length op idv).n - 1) }

/-- The `Index` impl (`read` in the specification):
`assert!(i < self.n); &self.node[i + self.n]`. -/
def index (t : SegmentTree T) (i : Nat) : Option T :=
  if i < t.n then some (t.node (i + t.n)) else none

/-- The `while i > 1 { i >>= 1; node[i] = op(node[i << 1], node[i << 1 | 1]); }`
loop of `SegmentTree::update`. -/
def updateLoop (op : T → T → T) (nd : Nat → T) (i : Nat) : Nat → T :=
  if h : 1 < i then
    updateLoop op (Function.update nd (i / 2) (op (nd (2 * (i / 2))) (nd (2 * (i / 2) + 1)))) (i / 2)
  else nd
termination_by i
decreasing_by omega

/-- `SegmentTree::update(i, x)`: assert `i < n`, write the leaf `i + n`,
then recompute every ancestor up to the root. -/
def update (t : SegmentTree T) (i : Nat) (x : T) : Option (SegmentTree T) :=
  if i < t.n then
    some { t with node := updateLoop t.op (Function.update t.node (i + t.n) x) (i + t.n) }
  else none

/-- The `while l < r { ... }` loop of `SegmentTree::query`, with the two
accumulators `res_l`/`res_r`.  Odd `l` is folded on the right of `res_l`;
`r` is first decremented and then folded on the left of `res_r`. -/
def queryLoop (op : T → T → T) (nd : Nat → T) (l r : Nat) (resl resr : T) : T × T :=
  if h : l < r then
    queryLoop op nd
      ((if l % 2 = 1 then l + 1 else l) / 2)
      ((if r % 2 = 1 then r - 1 else r) / 2)
      (if l % 2 = 1 then op resl (nd l) else resl)
      (if r % 2 = 1 then op (nd (r - 1)) resr else resr)
  else (resl, resr)
termination_by r
decreasing_by
  split <;> omega

/-- `SegmentTree::query(left, right)`: default `left` to `0` and `right` to
`self.n`, assert `l <= r && l <= node.len() && r <= node.len()` (the buffer
length is `2 * n`), run the loop from `left + n` / `right + n`, and return
`op(res_l, res_r)`. -/
def query (t : SegmentTree T) (left right : Option Nat) : Option T :=
  if left.getD 0 + t.n ≤ right.getD t.n + t.n ∧ left.getD 0 + t.n ≤ 2 * t.n ∧
      right.getD t.n + t.n ≤ 2 * t.n then
    some (t.op
      (queryLoop t.op t.node (left.getD 0 + t.n) (right.getD t.n + t.n) t.id t.id).1
      (queryLoop t.op t.node (left.getD 0 + t.n) (right.getD t.n + t.n) t.id t.id).2)
  else none

/-- The query loop instrumented with a counter of `op` invocations; apart
from the threaded counter this is exactly `queryLoop`. -/
def queryLoopCnt (op : T → T → T) (nd : Nat → T) (l r : Nat) (resl resr : T) (c : Nat) :
    T × T × Nat :=
  if h : l < r then
    queryLoopCnt op nd
      ((if l % 2 = 1 then l + 1 else l) / 2)
      ((if r % 2 = 1 then r - 1 else r) / 2)
      (if l % 2 = 1 then op resl (nd l) else resl)
      (if r % 2 = 1 then op (nd (r - 1)) resr else resr)
      (c + (if l % 2 = 1 then 1 else 0) + (if r % 2 = 1 then 1 else 0))
  else (resl, resr, c)
termination_by r
decreasing_by
  split <;> omega

/-- `SegmentTree::query` instrumented with the number of `op` invocations it
performs; the final `op(res_l, res_r)` counts as one invocation. -/
def queryCnt (t : SegmentTree T) (left right : Option Nat) : Option (T × Nat) :=
  if left.getD 0 + t.n ≤ right.getD t.n + t.n ∧ left.getD 0 + t.n ≤ 2 * t.n ∧
      right.getD t.n + t.n ≤ 2 * t.n then
    some (t.op
      (queryLoopCnt t.op t.node (left.getD 0 + t.n) (right.getD t.n + t.n) t.id t.id 0).1
      (queryLoopCnt t.op t.node (left.getD 0 + t.n) (right.getD t.n + t.n) t.id t.id 0).2.1,
      (queryLoopCnt t.op t.node (left.getD 0 + t.n) (right.getD t.n + t.n) t.id t.id 0).2.2 + 1)
  else none

/-- The flat indices written by the `update` walk started at flat index `i`:
`i / 2, i / 4, ..., 1` (empty for `i ≤ 1`). -/
def ancList (i : Nat) : List Nat :=
  if h : 1 < i then i / 2 :: ancList (i / 2) else []
termination_by i

/-- `op` is associative. -/
def AssocOp (op : T → T → T) : Prop :=
  ∀ a b c, op (op a b) c = op a (op b c)

/-- `e` is a two-sided identity for `op`. -/
def IsIdentity (op : T → T → T) (e : T) : Prop :=
  ∀ x, op e x = x ∧ op x e = x

/-- The heap property at flat index `i`: the node equals its two children
combined. -/
def heapAt (op : T → T → T) (nd : Nat → T) (i : Nat) : Prop :=
  nd i = op (nd (2 * i)) (nd (2 * i + 1))

/-- The tree-wide heap invariant: every internal flat index satisfies
`node[i] = op(node[2i], node[2i+1])`. -/
def heapInv (t : SegmentTree T) : Prop :=
  ∀ i, 1 ≤ i → i < t.n → heapAt t.op t.node i

/-- Left-to-right fold of the buffer entries over the flat index range
`[a, b)`, seeded with the identity. -/
def segFold (op : T → T → T) (idv : T) (nd : Nat → T) (a b : Nat) : T :=
  (List.range' a (b - a)).foldl (fun acc j => op acc (nd j)) idv

/-- The trees producible through the public constructors and successful
updates, for a fixed operation/identity pair. -/
inductive Reachable (op : T → T → T) (idv : T) : SegmentTree T → Prop
  | new : ∀ sz, Reachable op idv (SegmentTree.new sz op idv)
  | from_slice : ∀ s, Reachable op idv (SegmentTree.from_slice s op idv)
  | update : ∀ t i x t', Reachable op idv t → t.update i x = some t' → Reachable op idv t'

/-! ### Basic facts about `nextPow2` and the constructors -/

theorem nextPow2_pos (n : Nat) : 1 ≤ nextPow2 n := by
  induction n using Nat.strong_induction_on with
  | _ n IH =>
    rw [nextPow2]
    split
    · exact le_refl 1
    · have := IH ((n + 1) / 2) (by omega)
      omega

theorem le_nextPow2 (n : Nat) : n ≤ nextPow2 n := by
  induction n using Nat.strong_induction_on with
  | _ n IH =>
    rw [nextPow2]
    split
    · omega
    · have := IH ((n + 1) / 2) (by omega)
      omega

theorem new_n (sz : Nat) (op : T → T → T) (idv : T) : (new sz op idv).n = nextPow2 sz := rfl

theorem from_slice_n (s : List T) (op : T → T → T) (idv : T) :
    (from_slice s op idv).n = nextPow2 s.length := rfl

theorem from_slice_op (s : List T) (op : T → T → T) (idv : T) :
    (from_slice s op idv).op = op := rfl

theorem from_slice_id (s : List T) (op : T → T → T) (idv : T) :
    (from_slice s op idv).id = idv := rfl

theorem from_slice_node (s : List T) (op : T → T → T) (idv : T) :
    (from_slice s op idv).node =
      buildDown op (writeLeaves (nextPow2 s.length) s fun _ => idv)
        (nextPow2 s.length - 1) := rfl

/-! ### The leaf-writing loop of `from_slice` -/

theorem writeLeavesAux_frame (base : Nat) :
    ∀ (s : List T) (k : Nat) (nd : Nat → T) (j : Nat),
      j < base + k ∨ base + k + s.length ≤ j →
      (s.enumFrom k).foldl (fun nd p => Function.update nd (p.1 + base) p.2) nd j = nd j := by
  intro s
  induction s with
  | nil => intro k nd j _; rfl
  | cons x s IH =>
    intro k nd j hj
    simp only [List.length_cons] at hj
    simp only [List.enumFrom, List.foldl_cons]
    rw [IH (k + 1) _ j (by omega)]
    exact Function.update_noteq (by omega) _ _

theorem writeLeavesAux_get (base : Nat) (d : T) :
    ∀ (s : List T) (k : Nat) (nd : Nat → T) (m : Nat), m < s.length →
      (s.enumFrom k).foldl (fun nd p => Function.update nd (p.1 + base) p.2) nd (m + k + base) =
        s.getD m d := by
  intro s
  induction s with
  | nil => intro k nd m hm; simp at hm
  | cons x s IH =>
    intro k nd m hm
    simp only [List.enumFrom, List.foldl_cons]
    cases m with
    | zero =>
      rw [writeLeavesAux_frame base s (k + 1) _ (0 + k + base) (by omega)]
      show Function.update nd (k + base) x (0 + k + base) = _
      rw [Nat.zero_add, Function.update_same, List.getD_cons_zero]
    | succ m =>
      have harith : m + 1 + k + base = m + (k + 1) + base := by omega
      rw [harith, IH (k + 1) _ m (by simpa using hm), List.getD_cons_succ]

theorem writeLeaves_frame (base : Nat) (s : List T) (nd : Nat → T) (j : Nat)
    (hj : j < base ∨ base + s.length ≤ j) : writeLeaves base s nd j = nd j := by
  unfold writeLeaves List.enum
  exact writeLeavesAux_frame base s 0 nd j (by omega)

theorem writeLeaves_get (base : Nat) (d : T) (s : List T) (nd : Nat → T) (m : Nat)
    (hm : m < s.length) : writeLeaves base s nd (m + base) = s.getD m d := by
  unfold writeLeaves List.enum
  have : m + base = m + 0 + base := by omega
  rw [this]
  exact writeLeavesAux_get base d s 0 nd m hm

/-! ### The bottom-up build loop of `from_slice` -/

theorem buildDown_frame (op : T → T → T) :
    ∀ (m : Nat) (nd : Nat → T) (j : Nat), m < j ∨ j = 0 → buildDown op nd m j = nd j := by
  intro m
  induction m with
  | zero => intro nd j _; rfl
  | succ m IH =>
    intro nd j hj
    show buildDown op (Function.update nd (m + 1) _) m j = nd j
    rw [IH _ j (by omega)]
    exact Function.update_noteq (by omega) _ _

theorem buildDown_heap (op : T → T → T) :
    ∀ (m : Nat) (nd : Nat → T) (i : Nat), 1 ≤ i → i ≤ m →
      heapAt op (buildDown op nd m) i := by
  intro m
  induction m with
  | zero => intro nd i h1 h2; omega
  | succ m IH =>
    intro nd i h1 h2
    rcases Nat.lt_or_ge i (m + 1) with hi | hi
    · exact IH _ i h1 (by omega)
    · have hi' : i = m + 1 := by omega
      subst hi'
      unfold heapAt
      simp only [buildDown]
      rw [buildDown_frame op m _ (m + 1) (by omega),
        buildDown_frame op m _ (2 * (m + 1)) (by omega),
        buildDown_frame op m _ (2 * (m + 1) + 1) (by omega),
        Function.update_same,
        Function.update_noteq (by omega) _ _,
        Function.update_noteq (by omega) _ _]

/-- Leaves of a freshly built tree: position `j < |s|` holds `s[j]`. -/
theorem from_slice_leaf (s : List T) (op : T → T → T) (idv d : T) {j : Nat}
    (hj : j < s.length) :
    (from_slice s op idv).node (j + nextPow2 s.length) = s.getD j d := by
  rw [from_slice_node]
  rw [buildDown_frame op _ _ _ (by have := nextPow2_pos s.length; omega)]
  exact writeLeaves_get _ d s _ j hj

/-- Leaves of a freshly built tree: padding positions `|s| ≤ j` hold the
identity. -/
theorem from_slice_pad (s : List T) (op : T → T → T) (idv : T) {j : Nat}
    (hj : s.length ≤ j) :
    (from_slice s op idv).node (j + nextPow2 s.length) = idv := by
  rw [from_slice_node]
  rw [buildDown_frame op _ _ _ (by have := nextPow2_pos s.length; omega)]
  rw [writeLeaves_frame _ s _ _ (by omega)]

/-! ### Ancestors and the update walk -/

theorem ancList_lt : ∀ i j : Nat, j ∈ ancList i → j < i := by
  intro i
  induction i using Nat.strong_induction_on with
  | _ i IH =>
    intro j hj
    by_cases h : 1 < i
    · rw [ancList, dif_pos h] at hj
      rcases List.mem_cons.mp hj with hc | hc
      · omega
      · have := IH (i / 2) (by omega) j hc
        omega
    · rw [ancList, dif_neg h] at hj
      simp at hj

theorem self_not_mem_ancList (i : Nat) : i ∉ ancList i := by
  intro h
  exact absurd (ancList_lt i i h) (Nat.lt_irrefl i)

theorem div2_mem_ancList {i : Nat} (h : 1 < i) : i / 2 ∈ ancList i := by
  rw [ancList, dif_pos h]
  exact List.mem_cons_self _ _

theorem updateLoop_frame (op : T → T → T) :
    ∀ (i : Nat) (nd : Nat → T) (j : Nat), j ∉ ancList i → updateLoop op nd i j = nd j := by
  intro i
  induction i using Nat.strong_induction_on with
  | _ i IH =>
    intro nd j hj
    by_cases h : 1 < i
    · rw [ancList, dif_pos h] at hj
      rw [updateLoop, dif_pos h]
      rw [IH (i / 2) (by omega) _ j (fun hc => hj (List.mem_cons_of_mem _ hc))]
      exact Function.update_noteq (fun hc => hj (by rw [hc]; exact List.mem_cons_self _ _)) _ _
    · rw [updateLoop, dif_neg h]

/-- Running the update walk from flat index `i` restores the heap property
everywhere below `N`, provided it already held outside the ancestors of `i`. -/
theorem updateLoop_heap (op : T → T → T) {N : Nat} :
    ∀ (i : Nat) (nd : Nat → T),
      (∀ j, 1 ≤ j → j < N → j ∉ ancList i → heapAt op nd j) →
      ∀ j, 1 ≤ j → j < N → heapAt op (updateLoop op nd i) j := by
  intro i
  induction i using Nat.strong_induction_on with
  | _ i IH =>
    intro nd hnd j hj1 hjN
    by_cases h : 1 < i
    · rw [updateLoop, dif_pos h]
      refine IH (i / 2) (by omega) _ ?_ j hj1 hjN
      intro j' hj'1 hj'N hj'anc
      by_cases hje : j' = i / 2
      · subst hje
        unfold heapAt
        rw [Function.update_same, Function.update_noteq (by omega) _ _,
          Function.update_noteq (by omega) _ _]
      · have hjanc : j' ∉ ancList i := by
          rw [ancList, dif_pos h]
          intro hc
          rcases List.mem_cons.mp hc with hc | hc
          · exact hje hc
          · exact hj'anc hc
        have hheap := hnd j' hj'1 hj'N hjanc
        unfold heapAt at hheap ⊢
        have h2 : 2 * j' ≠ i / 2 := by
          intro hc
          by_cases hd : 1 < i / 2
          · apply hj'anc
            have hmem := div2_mem_ancList hd
            have he : i / 2 / 2 = j' := by omega
            rwa [he] at hmem
          · omega
        have h3 : 2 * j' + 1 ≠ i / 2 := by
          intro hc
          by_cases hd : 1 < i / 2
          · apply hj'anc
            have hmem := div2_mem_ancList hd
            have he : i / 2 / 2 = j' := by omega
            rwa [he] at hmem
          · omega
        rw [Function.update_noteq hje _ _, Function.update_noteq h2 _ _,
          Function.update_noteq h3 _ _]
        exact hheap
    · rw [updateLoop, dif_neg h]
      apply hnd j hj1 hjN
      rw [ancList, dif_neg h]
      simp

/-- A successful `update` preserves the tree-wide heap invariant. -/
theorem update_heapInv {t : SegmentTree T} {i : Nat} {x : T} {t' : SegmentTree T}
    (hheap : heapInv t) (hupd : t.update i x = some t') : heapInv t' := by
  by_cases hi : i < t.n
  · rw [SegmentTree.update, if_pos hi] at hupd
    injection hupd with hupd
    subst hupd
    intro j hj1 hjN
    dsimp only at hjN ⊢
    refine updateLoop_heap t.op (i + t.n) _ ?_ j hj1 hjN
    intro j' hj'1 hj'N hj'anc
    have hheap' := hheap j' hj'1 hj'N
    unfold heapAt at hheap' ⊢
    have h1 : j' ≠ i + t.n := by omega
    have h2 : 2 * j' ≠ i + t.n := by
      intro hc
      apply hj'anc
      have hd : 1 < i + t.n := by omega
      have hmem := div2_mem_ancList hd
      have he : (i + t.n) / 2 = j' := by omega
      rwa [he] at hmem
    have h3 : 2 * j' + 1 ≠ i + t.n := by
      intro hc
      apply hj'anc
      have hd : 1 < i + t.n := by omega
      have hmem := div2_mem_ancList hd
      have he : (i + t.n) / 2 = j' := by omega
      rwa [he] at hmem
    rw [Function.update_noteq h1 _ _, Function.update_noteq h2 _ _,
      Function.update_noteq h3 _ _]
    exact hheap'
  · rw [SegmentTree.update, if_neg hi] at hupd
    cases hupd

/-- An empty construction satisfies the heap invariant as soon as
`op(id, id) = id`. -/
theorem new_heapInv (op : T → T → T) (idv : T) (hid : op idv idv = idv) (sz : Nat) :
    heapInv (new sz op idv) := by
  intro i _ _
  exact hid.symm

/-- A `from_slice` construction satisfies the heap invariant (no laws needed:
the bottom-up pass literally establishes it). -/
theorem from_slice_heapInv (s : List T) (op : T → T → T) (idv : T) :
    heapInv (from_slice s op idv) := by
  intro i h1 hN
  rw [from_slice_n] at hN
  show heapAt op ((from_slice s op idv).node) i
  rw [from_slice_node]
  exact buildDown_heap op _ _ i h1 (by omega)

/-- Every reachable tree stores the pair it was built with, and its capacity
is positive and never changes. -/
theorem reachable_fields {op : T → T → T} {idv : T} {t : SegmentTree T}
    (h : Reachable op idv t) : t.op = op ∧ t.id = idv ∧ 1 ≤ t.n := by
  induction h with
  | new sz => exact ⟨rfl, rfl, nextPow2_pos sz⟩
  | from_slice s => exact ⟨rfl, rfl, nextPow2_pos s.length⟩
  | update t i x t' _ hupd IH =>
    by_cases hi : i < t.n
    · rw [SegmentTree.update, if_pos hi] at hupd
      injection hupd with hupd
      subst hupd
      exact IH
    · rw [SegmentTree.update, if_neg hi] at hupd
      cases hupd

/-- Every reachable tree satisfies the heap invariant, provided the stored
identity absorbs itself (needed only for the `new` case). -/
theorem reachable_heapInv {op : T → T → T} {idv : T} {t : SegmentTree T}
    (hid : op idv idv = idv) (h : Reachable op idv t) : heapInv t := by
  induction h with
  | new sz => exact new_heapInv op idv hid sz
  | from_slice s => exact from_slice_heapInv s op idv
  | update t i x t' _ hupd IH => exact update_heapInv IH hupd

/-! ### Folds over flat index ranges -/

theorem segFold_empty (op : T → T → T) (idv : T) (nd : Nat → T) {a b : Nat} (h : b ≤ a) :
    segFold op idv nd a b = idv := by
  unfold segFold
  rw [Nat.sub_eq_zero_of_le h]
  rfl

theorem segFold_snoc (op : T → T → T) (idv : T) (nd : Nat → T) {a b : Nat} (hab : a ≤ b) :
    segFold op idv nd a (b + 1) = op (segFold op idv nd a b) (nd b) := by
  unfold segFold
  have h1 : b + 1 - a = (b - a) + 1 := by omega
  have h2 : (b - a) + 1 = 1 + (b - a) := by omega
  rw [h1, h2, ← List.range'_append a (b - a) 1 1]
  rw [List.foldl_append]
  have h3 : a + 1 * (b - a) = b := by omega
  rw [h3]
  rfl

theorem foldl_op_from (op : T → T → T) (hassoc : AssocOp op) (nd : Nat → T) :
    ∀ (l : List Nat) (x y : T),
      l.foldl (fun acc j => op acc (nd j)) (op x y) =
        op x (l.foldl (fun acc j => op acc (nd j)) y) := by
  intro l
  induction l with
  | nil => intro x y; rfl
  | cons j l IH =>
    intro x y
    simp only [List.foldl_cons]
    rw [hassoc]
    exact IH x (op y (nd j))

theorem segFold_concat (op : T → T → T) (idv : T) (nd : Nat → T) (hassoc : AssocOp op)
    (hidr : ∀ x, op x idv = x) {a b c : Nat} (hab : a ≤ b) (hbc : b ≤ c) :
    segFold op idv nd a c = op (segFold op idv nd a b) (segFold op idv nd b c) := by
  unfold segFold
  have hsplit : List.range' a (c - a) = List.range' a (b - a) ++ List.range' b (c - b) := by
    have h := List.range'_append a (b - a) (c - b) 1
    have h1 : a + 1 * (b - a) = b := by omega
    have h2 : c - b + (b - a) = c - a := by omega
    rw [h1, h2] at h
    exact h.symm
  rw [hsplit, List.foldl_append]
  conv_lhs => rw [← hidr ((List.range' a (b - a)).foldl (fun acc j => op acc (nd j)) idv)]
  exact foldl_op_from op hassoc nd _ _ idv

theorem segFold_const (op : T → T → T) (idv : T) (nd : Nat → T) (hid : op idv idv = idv) :
    ∀ (k a : Nat), (∀ j, a ≤ j → j < a + k → nd j = idv) →
      segFold op idv nd a (a + k) = idv := by
  intro k
  induction k with
  | zero => intro a _; exact segFold_empty op idv nd (le_refl a)
  | succ k IH =>
    intro a hconst
    have h1 : a + (k + 1) = (a + k) + 1 := by omega
    rw [h1, segFold_snoc op idv nd (by omega), IH a (fun j h1 h2 => hconst j h1 (by omega)),
      hconst (a + k) (by omega) (by omega), hid]

/-! ### The subtree decomposition: with the heap invariant, a node's value is
the left-to-right fold of the leaf band it covers -/

theorem node_eq_segFold (op : T → T → T) (idv : T) (nd : Nat → T) {N : Nat}
    (hassoc : AssocOp op) (hidl : ∀ x, op idv x = x) (hidr : ∀ x, op x idv = x)
    (hheap : ∀ i, 1 ≤ i → i < N → heapAt op nd i) :
    ∀ (e i : Nat), 1 ≤ i → N ≤ i * 2 ^ e → (i + 1) * 2 ^ e ≤ 2 * N →
      nd i = segFold op idv nd (i * 2 ^ e) ((i + 1) * 2 ^ e) := by
  intro e
  induction e with
  | zero =>
    intro i h1 hlo hhi
    simp only [pow_zero, Nat.mul_one]
    rw [segFold_snoc op idv nd (le_refl i), segFold_empty op idv nd (le_refl i), hidl]
  | succ e IH =>
    intro i h1 hlo hhi
    have hP : (1 : Nat) ≤ 2 ^ e := Nat.one_le_two_pow
    have hpow : (2 : Nat) ^ (e + 1) = 2 ^ e * 2 := pow_succ 2 e
    have hiN : i < N := by
      have h2 : (i + 1) * 2 ≤ (i + 1) * 2 ^ (e + 1) := by
        apply Nat.mul_le_mul_left
        omega
      omega
    have hheapi : nd i = op (nd (2 * i)) (nd (2 * i + 1)) := hheap i h1 hiN
    rw [hheapi]
    have hc1 : nd (2 * i) = segFold op idv nd ((2 * i) * 2 ^ e) ((2 * i + 1) * 2 ^ e) := by
      have := IH (2 * i) (by omega)
        (by
          calc N ≤ i * 2 ^ (e + 1) := hlo
          _ = 2 * i * 2 ^ e := by ring)
        (by
          calc (2 * i + 1) * 2 ^ e ≤ (2 * i + 2) * 2 ^ e := Nat.mul_le_mul_right _ (by omega)
          _ = (i + 1) * 2 ^ (e + 1) := by ring
          _ ≤ 2 * N := hhi)
      have ha : 2 * i + 1 = 2 * i + 1 := rfl
      exact this
    have hc2 : nd (2 * i + 1) = segFold op idv nd ((2 * i + 1) * 2 ^ e) ((2 * i + 2) * 2 ^ e) := by
      have := IH (2 * i + 1) (by omega)
        (by
          calc N ≤ i * 2 ^ (e + 1) := hlo
          _ = 2 * i * 2 ^ e := by ring
          _ ≤ (2 * i + 1) * 2 ^ e := Nat.mul_le_mul_right _ (by omega))
        (by
          calc (2 * i + 1 + 1) * 2 ^ e = (i + 1) * 2 ^ (e + 1) := by ring
          _ ≤ 2 * N := hhi)
      have ha : 2 * i + 1 + 1 = 2 * i + 2 := by omega
      rw [ha] at this
      exact this
    rw [hc1, hc2]
    rw [← segFold_concat op idv nd hassoc hidr
      (Nat.mul_le_mul_right _ (by omega)) (Nat.mul_le_mul_right _ (by omega))]
    congr 1 <;> ring

/-! ### The query loop invariant -/

theorem assoc_shuffle (op : T → T → T) (hassoc : AssocOp op) (a A M B b : T) :
    op (op a A) (op M (op B b)) = op a (op (op A (op M B)) b) := by
  have h : ∀ x y z, op (op x y) z = op x (op y z) := hassoc
  simp only [h]

theorem queryLoop_inv (op : T → T → T) (idv : T) (nd : Nat → T) {N : Nat}
    (hassoc : AssocOp op) (hidl : ∀ x, op idv x = x) (hidr : ∀ x, op x idv = x)
    (hN : 1 ≤ N) (hheap : ∀ i, 1 ≤ i → i < N → heapAt op nd i) :
    ∀ (r l : Nat) (resl resr : T) (e : Nat), l ≤ r → N ≤ l * 2 ^ e → r * 2 ^ e ≤ 2 * N →
      op (queryLoop op nd l r resl resr).1 (queryLoop op nd l r resl resr).2 =
        op resl (op (segFold op idv nd (l * 2 ^ e) (r * 2 ^ e)) resr) := by
  intro r
  induction r using Nat.strong_induction_on with
  | _ r IHr =>
    intro l resl resr e hlr hlo hhi
    by_cases h : l < r
    case neg =>
      have hleq : l = r := by omega
      subst hleq
      rw [queryLoop, dif_neg h]
      rw [segFold_empty op idv nd (le_refl (l * 2 ^ e)), hidl]
    case pos =>
      have hP : (1 : Nat) ≤ 2 ^ e := Nat.one_le_two_pow
      have hl1 : 1 ≤ l := by
        rcases Nat.eq_zero_or_pos l with hc | hc
        · subst hc; simp at hlo; omega
        · exact hc
      have hr2 : 2 ≤ r := by omega
      have hl1e : (if l % 2 = 1 then l + 1 else l) % 2 = 0 := by split <;> omega
      have hr1e : (if r % 2 = 1 then r - 1 else r) % 2 = 0 := by split <;> omega
      have hll1 : l ≤ (if l % 2 = 1 then l + 1 else l) := by split <;> omega
      have hl1r1 : (if l % 2 = 1 then l + 1 else l) ≤ (if r % 2 = 1 then r - 1 else r) := by
        split <;> split <;> omega
      have hr1r : (if r % 2 = 1 then r - 1 else r) ≤ r := by split <;> omega
      have hl1r : (if l % 2 = 1 then l + 1 else l) ≤ r := by omega
      have hmul : ∀ a : Nat, a % 2 = 0 → a / 2 * 2 ^ (e + 1) = a * 2 ^ e := by
        intro a ha
        have h2 : a / 2 * 2 = a := by omega
        calc a / 2 * 2 ^ (e + 1) = a / 2 * 2 * 2 ^ e := by ring
        _ = a * 2 ^ e := by rw [h2]
      have hA : (if l % 2 = 1 then op resl (nd l) else resl) =
          op resl (segFold op idv nd (l * 2 ^ e) ((if l % 2 = 1 then l + 1 else l) * 2 ^ e)) := by
        by_cases hlp : l % 2 = 1
        · rw [if_pos hlp, if_pos hlp]
          congr 1
          exact node_eq_segFold op idv nd hassoc hidl hidr hheap e l hl1 hlo
            (le_trans (Nat.mul_le_mul_right _ (by omega)) hhi)
        · rw [if_neg hlp, if_neg hlp, segFold_empty op idv nd (le_refl (l * 2 ^ e)), hidr]
      have hB : (if r % 2 = 1 then op (nd (r - 1)) resr else resr) =
          op (segFold op idv nd ((if r % 2 = 1 then r - 1 else r) * 2 ^ e) (r * 2 ^ e)) resr := by
        by_cases hrp : r % 2 = 1
        · rw [if_pos hrp, if_pos hrp]
          congr 1
          have hstep := node_eq_segFold op idv nd hassoc hidl hidr hheap e (r - 1) (by omega)
            (le_trans hlo (Nat.mul_le_mul_right _ (by omega)))
            (by
              have he : r - 1 + 1 = r := by omega
              rw [he]
              exact hhi)
          have he : r - 1 + 1 = r := by omega
          rw [he] at hstep
          exact hstep
        · rw [if_neg hrp, if_neg hrp, segFold_empty op idv nd (le_refl (r * 2 ^ e)), hidl]
      have hIH := IHr ((if r % 2 = 1 then r - 1 else r) / 2) (by omega)
        ((if l % 2 = 1 then l + 1 else l) / 2)
        (if l % 2 = 1 then op resl (nd l) else resl)
        (if r % 2 = 1 then op (nd (r - 1)) resr else resr)
        (e + 1)
        (by omega)
        (by rw [hmul _ hl1e]; exact le_trans hlo (Nat.mul_le_mul_right _ hll1))
        (by rw [hmul _ hr1e]; exact le_trans (Nat.mul_le_mul_right _ hr1r) hhi)
      rw [queryLoop, dif_pos h, hIH, hmul _ hl1e, hmul _ hr1e, hA, hB]
      have hM : segFold op idv nd (l * 2 ^ e) (r * 2 ^ e) =
          op (segFold op idv nd (l * 2 ^ e) ((if l % 2 = 1 then l + 1 else l) * 2 ^ e))
            (op (segFold op idv nd ((if l % 2 = 1 then l + 1 else l) * 2 ^ e)
                ((if r % 2 = 1 then r - 1 else r) * 2 ^ e))
              (segFold op idv nd ((if r % 2 = 1 then r - 1 else r) * 2 ^ e) (r * 2 ^ e))) := by
        rw [← segFold_concat op idv nd hassoc hidr
          (Nat.mul_le_mul_right _ hl1r1) (Nat.mul_le_mul_right _ hr1r)]
        rw [← segFold_concat op idv nd hassoc hidr
          (Nat.mul_le_mul_right _ hll1) (Nat.mul_le_mul_right _ hl1r)]
      rw [hM]
      exact assoc_shuffle op hassoc resl _ _ _ resr

/-- The value computed by a well-formed query: the fold of the leaf band
`[left + n, right + n)`. -/
theorem query_eq_segFold {t : SegmentTree T}
    (hassoc : AssocOp t.op) (hidl : ∀ x, t.op t.id x = x) (hidr : ∀ x, t.op x t.id = x)
    (hheap : heapInv t) (hN : 1 ≤ t.n) {a b : Nat} (hab : a ≤ b) (hb : b ≤ t.n) :
    t.query (some a) (some b) =
      some (segFold t.op t.id t.node (a + t.n) (b + t.n)) := by
  rw [query, if_pos (by simp only [Option.getD_some]; omega)]
  simp only [Option.getD_some]
  have hinv := queryLoop_inv t.op t.id t.node hassoc hidl hidr hN hheap
    (b + t.n) (a + t.n) t.id t.id 0 (by omega)
    (by simp only [pow_zero, Nat.mul_one]; omega)
    (by simp only [pow_zero, Nat.mul_one]; omega)
  simp only [pow_zero, Nat.mul_one] at hinv
  rw [hinv, hidl, hidr]

/-! ### Remaining support lemmas -/

theorem update_eq_some {t : SegmentTree T} {i : Nat} (x : T) (hi : i < t.n) :
    t.update i x =
      some { t with node := updateLoop t.op (Function.update t.node (i + t.n) x) (i + t.n) } := by
  rw [SegmentTree.update, if_pos hi]

/-- Padding flat indices (`≥ |s| + capacity`) of a fresh tree hold the
identity. -/
theorem from_slice_node_pad (s : List T) (op : T → T → T) (idv : T) {j : Nat}
    (hj : s.length + nextPow2 s.length ≤ j) : (from_slice s op idv).node j = idv := by
  have h := from_slice_pad s op idv (show s.length ≤ j - nextPow2 s.length by omega)
  rwa [show j - nextPow2 s.length + nextPow2 s.length = j from by omega] at h

theorem segFold_const_of_id (op : T → T → T) (idv : T) (nd : Nat → T)
    (hid : op idv idv = idv) {a b : Nat} (hconst : ∀ j, a ≤ j → j < b → nd j = idv) :
    segFold op idv nd a b = idv := by
  rcases Nat.le_total b a with h | h
  · exact segFold_empty op idv nd h
  · have hk := segFold_const op idv nd hid (b - a) a (fun j h1 h2 => hconst j h1 (by omega))
    rwa [show a + (b - a) = b from by omega] at hk

/-- The fold of a leaf band of a fresh tree is the fold of the corresponding
slice of the input list. -/
theorem segFold_leaves_eq_fold (s : List T) (op : T → T → T) (idv : T) {l r : Nat}
    (hlr : l ≤ r) (hr : r ≤ s.length) :
    segFold op idv (from_slice s op idv).node (l + nextPow2 s.length) (r + nextPow2 s.length) =
      ((s.drop l).take (r - l)).foldl op idv := by
  unfold segFold
  rw [show r + nextPow2 s.length - (l + nextPow2 s.length) = r - l from by omega]
  rw [← List.foldl_map (from_slice s op idv).node op]
  congr 1
  apply List.ext_getElem
  · simp only [List.length_map, List.length_range', List.length_take, List.length_drop]
    omega
  · intro m h1 h2
    simp only [List.getElem_map, List.getElem_range', List.getElem_take, List.getElem_drop]
    have hlm : l + m < s.length := by
      simp only [List.length_map, List.length_range'] at h1
      omega
    have hleaf := from_slice_leaf s op idv idv (show l + m < s.length from hlm)
    rw [show l + nextPow2 s.length + 1 * m = l + m + nextPow2 s.length from by omega, hleaf,
      List.getD_eq_getElem s idv hlm]

/-! ### The claims -/

/-- C1: on a tree built by `from_slice` from `s` with an associative `op` and
a two-sided identity, `query(Some l, Some r)` (for `l ≤ r ≤ |s|`) returns
exactly the left-to-right fold of `s[l..r)` seeded with the identity — the
in-order combination, valid also for non-commutative `op`. -/
theorem C1_from_slice_query_matches_fold (s : List T) (op : T → T → T) (idv : T)
    (hassoc : AssocOp op) (hid : IsIdentity op idv) (l r : Nat) (hlr : l ≤ r)
    (hr : r ≤ s.length) :
    (from_slice s op idv).query (some l) (some r) =
      some (((s.drop l).take (r - l)).foldl op idv) := by
  have hidl : ∀ x, op idv x = x := fun x => (hid x).1
  have hidr : ∀ x, op x idv = x := fun x => (hid x).2
  have hq := query_eq_segFold (t := from_slice s op idv) hassoc hidl hidr
    (from_slice_heapInv s op idv) (nextPow2_pos s.length) hlr
    (le_trans hr (le_nextPow2 s.length))
  rw [hq]
  exact congrArg some (segFold_leaves_eq_fold s op idv hlr hr)

/-- Witness for C1: the sum tree over `[1, 2]`, whole range. -/
theorem C1_witness :
    (SegmentTree.from_slice [1, 2] Nat.add 0).query (some 0) (some 2) =
      some ((([1, 2].drop 0).take (2 - 0)).foldl Nat.add 0) :=
  C1_from_slice_query_matches_fold [1, 2] Nat.add 0
    (fun a b c => Nat.add_assoc a b c)
    (fun x => ⟨Nat.zero_add x, Nat.add_zero x⟩)
    0 2 (by omega) (by decide)

/-- C2: every tree obtained by a construction followed by successful updates
satisfies the flat-array heap property `node[i] = op(node[2i], node[2i+1])`
at every internal index `1 ≤ i < capacity` (the laws are needed only for the
`new` case). -/
theorem C2_heap_invariant (op : T → T → T) (idv : T) (_hassoc : AssocOp op)
    (hid : IsIdentity op idv) (t : SegmentTree T) (hreach : Reachable op idv t) :
    ∀ i, 1 ≤ i → i < t.n → t.node i = op (t.node (2 * i)) (t.node (2 * i + 1)) := by
  intro i h1 h2
  have hfields := reachable_fields hreach
  have hheap := reachable_heapInv (hid idv).1 hreach i h1 h2
  rw [← hfields.1]
  exact hheap

/-- Witness for C2: the sum tree over `[1, 2]`, root node. -/
theorem C2_witness :
    (SegmentTree.from_slice [1, 2] Nat.add 0).node 1 =
      Nat.add ((SegmentTree.from_slice [1, 2] Nat.add 0).node 2)
        ((SegmentTree.from_slice [1, 2] Nat.add 0).node 3) :=
  C2_heap_invariant Nat.add 0 (fun a b c => Nat.add_assoc a b c)
    (fun x => ⟨Nat.zero_add x, Nat.add_zero x⟩)
    (SegmentTree.from_slice [1, 2] Nat.add 0) (Reachable.from_slice [1, 2])
    1 (le_refl 1) (by rw [from_slice_n]; simp [nextPow2])

/-- C3 counterexample: the claim says indexing fails exactly when
`index ≥ n_logical`; but on the 7-element tree (capacity 8) reading
logical index `7 ≥ 7 = n_logical` succeeds and returns the identity. -/
theorem C3_cex :
    (SegmentTree.from_slice ([1, 2, -91, 20, 5, 10, 970] : List Int)
      (fun a b => a + b) 0).index 7 = some 0 := by
  have hn : (SegmentTree.from_slice ([1, 2, -91, 20, 5, 10, 970] : List Int)
      (fun a b => a + b) 0).n = 8 := by
    rw [from_slice_n]
    simp [nextPow2]
  rw [SegmentTree.index, if_pos (by omega)]
  exact congrArg some (from_slice_pad _ _ _ (by decide))

/-- C3 amended: `index` (the spec's `read`) and `update` fail exactly when
the index is `≥ capacity` (`t.n`, the next power of two of the requested
size), not `≥ n_logical`; a failing update returns `none` and produces no
tree, so nothing is mutated. -/
theorem C3_index_update_bounds (t : SegmentTree T) (i : Nat) (x : T) :
    (t.index i = none ↔ t.n ≤ i) ∧ (t.update i x = none ↔ t.n ≤ i) := by
  constructor
  · by_cases hi : i < t.n
    · rw [SegmentTree.index, if_pos hi]
      simp
      omega
    · rw [SegmentTree.index, if_neg hi]
      simp
      omega
  · by_cases hi : i < t.n
    · rw [SegmentTree.update, if_pos hi]
      simp
      omega
    · rw [SegmentTree.update, if_neg hi]
      simp
      omega

/-- C4 counterexample: the claim says `query` fails exactly when
`right > n_logical`; but on the 3-element tree (capacity 4) the call
`query(Some 0, Some 4)` with `4 > 3 = n_logical` succeeds (padding is
identity, so it returns the full sum). -/
theorem C4_cex :
    (SegmentTree.from_slice [1, 2, 3] Nat.add 0).query (some 0) (some 4) = some 6 := by
  simp [from_slice, new, nextPow2, writeLeaves, buildDown, query, queryLoop,
    Function.update_apply, List.enum, List.enumFrom]

/-- C4 amended: `query(Some l, Some r)` fails exactly when `l > r` or
`r > capacity` (`t.n`); in particular every `l ≤ r ≤ capacity` succeeds, and
since `query` takes the tree immutably a failing call mutates nothing. -/
theorem C4_query_bounds (t : SegmentTree T) (l r : Nat) :
    t.query (some l) (some r) = none ↔ r < l ∨ t.n < r := by
  simp only [query, Option.getD_some]
  by_cases hc : l + t.n ≤ r + t.n ∧ l + t.n ≤ 2 * t.n ∧ r + t.n ≤ 2 * t.n
  · rw [if_pos hc]
    simp
    omega
  · rw [if_neg hc]
    simp
    omega

/-- C5: on a tree satisfying the heap invariant (which holds for every tree
the API can produce, by C2), with a lawful pair, queries decompose:
`query(i, k) = op(query(i, j), query(j, k))` for `i ≤ j ≤ k ≤ capacity`. -/
theorem C5_query_decomposition (t : SegmentTree T) (hassoc : AssocOp t.op)
    (hid : IsIdentity t.op t.id) (hheap : heapInv t) (hN : 1 ≤ t.n)
    (i j k : Nat) (hij : i ≤ j) (hjk : j ≤ k) (hk : k ≤ t.n) :
    t.query (some i) (some k) =
      Option.map₂ t.op (t.query (some i) (some j)) (t.query (some j) (some k)) := by
  have hidl : ∀ x, t.op t.id x = x := fun x => (hid x).1
  have hidr : ∀ x, t.op x t.id = x := fun x => (hid x).2
  rw [query_eq_segFold hassoc hidl hidr hheap hN (le_trans hij hjk) hk,
    query_eq_segFold hassoc hidl hidr hheap hN hij (le_trans hjk hk),
    query_eq_segFold hassoc hidl hidr hheap hN hjk hk]
  simp only [Option.map₂, Option.some_bind, Option.map_some']
  exact congrArg some (segFold_concat t.op t.id t.node hassoc hidr (by omega) (by omega))

/-- Witness for C5 on a one-leaf tree. -/
theorem C5_witness :
    (⟨1, fun _ => 0, Nat.add, 0⟩ : SegmentTree Nat).query (some 0) (some 1) =
      Option.map₂ Nat.add
        ((⟨1, fun _ => 0, Nat.add, 0⟩ : SegmentTree Nat).query (some 0) (some 0))
        ((⟨1, fun _ => 0, Nat.add, 0⟩ : SegmentTree Nat).query (some 0) (some 1)) :=
  C5_query_decomposition ⟨1, fun _ => 0, Nat.add, 0⟩
    (fun a b c => Nat.add_assoc a b c)
    (fun x => ⟨Nat.zero_add x, Nat.add_zero x⟩)
    (by intro i h1 h2; have hx : i < 1 := h2; omega)
    (le_refl 1) 0 0 1 (le_refl 0) (by omega) (le_refl 1)

/-- C6: after a successful `update(p, v)` on a heap-invariant tree with a
lawful pair, `index p` returns `v` and `query(Some p, Some (p+1))` returns
`v`. -/
theorem C6_read_after_update (t : SegmentTree T) (p : Nat) (v : T) (t' : SegmentTree T)
    (hassoc : AssocOp t.op) (hid : IsIdentity t.op t.id) (hheap : heapInv t)
    (hp : p < t.n) (hupd : t.update p v = some t') :
    t'.index p = some v ∧ t'.query (some p) (some (p + 1)) = some v := by
  have hidl : ∀ x, t.op t.id x = x := fun x => (hid x).1
  have hheap' : heapInv t' := update_heapInv hheap hupd
  rw [update_eq_some v hp] at hupd
  injection hupd with hupd
  subst hupd
  have hleaf : (updateLoop t.op (Function.update t.node (p + t.n) v) (p + t.n)) (p + t.n) = v := by
    rw [updateLoop_frame t.op _ _ _ (self_not_mem_ancList _), Function.update_same]
  constructor
  · rw [SegmentTree.index]
    dsimp only
    rw [if_pos hp, hleaf]
  · have hq := query_eq_segFold
      (t := { t with node := updateLoop t.op (Function.update t.node (p + t.n) v) (p + t.n) })
      hassoc hidl (fun x => (hid x).2) hheap' (by dsimp only; omega)
      (show p ≤ p + 1 by omega) (show p + 1 ≤ t.n by omega)
    rw [hq]
    dsimp only
    rw [show p + 1 + t.n = (p + t.n) + 1 from by omega,
      segFold_snoc t.op t.id _ (le_refl (p + t.n)),
      segFold_empty t.op t.id _ (le_refl (p + t.n)), hleaf, hidl]

/-- Witness for C6 on a one-leaf tree. -/
theorem C6_witness :
    (((⟨1, fun _ => 0, Nat.add, 0⟩ : SegmentTree Nat).update 0 7).getD
        ⟨1, fun _ => 0, Nat.add, 0⟩).index 0 = some 7 ∧
      (((⟨1, fun _ => 0, Nat.add, 0⟩ : SegmentTree Nat).update 0 7).getD
        ⟨1, fun _ => 0, Nat.add, 0⟩).query (some 0) (some 1) = some 7 :=
  C6_read_after_update ⟨1, fun _ => 0, Nat.add, 0⟩ 0 7
    (((⟨1, fun _ => 0, Nat.add, 0⟩ : SegmentTree Nat).update 0 7).getD
      ⟨1, fun _ => 0, Nat.add, 0⟩)
    (fun a b c => Nat.add_assoc a b c)
    (fun x => ⟨Nat.zero_add x, Nat.add_zero x⟩)
    (by intro i h1 h2; have hx : i < 1 := h2; omega)
    Nat.one_pos (by rfl)

/-- C7 counterexample: the claim says the empty-range query returns the
identity *without invoking the operation*; instrumenting the source's query
with an invocation counter (`queryCnt`) shows the final
`op(res_l, res_r)` is still executed: one invocation, not zero. -/
theorem C7_cex :
    (⟨1, fun _ => 0, Nat.add, 0⟩ : SegmentTree Nat).queryCnt (some 0) (some 0) =
      some (0, 1) := by
  rw [queryCnt, if_pos (by simp only [Option.getD_some]; omega)]
  simp only [Option.getD_some]
  rw [queryLoopCnt, dif_neg (lt_irrefl (0 + 1))]
  rfl

/-- C7 amended: for `k ≤ capacity`, the empty-range query `query(k, k)`
returns `op(id, id)` — equal to the identity whenever `op(id, id) = id` — and
performs exactly one `op` invocation (the final combine), not zero. -/
theorem C7_empty_range (t : SegmentTree T) (k : Nat) (hid : t.op t.id t.id = t.id)
    (hk : k ≤ t.n) :
    t.query (some k) (some k) = some t.id ∧
      t.queryCnt (some k) (some k) = some (t.id, 1) := by
  constructor
  · rw [query, if_pos (by simp only [Option.getD_some]; omega)]
    simp only [Option.getD_some]
    rw [queryLoop, dif_neg (lt_irrefl (k + t.n))]
    dsimp only
    rw [hid]
  · rw [queryCnt, if_pos (by simp only [Option.getD_some]; omega)]
    simp only [Option.getD_some]
    rw [queryLoopCnt, dif_neg (lt_irrefl (k + t.n))]
    dsimp only
    rw [hid]

/-- Witness for C7 (amended) on a one-leaf tree. -/
theorem C7_witness :
    (⟨1, fun _ => 0, Nat.add, 0⟩ : SegmentTree Nat).query (some 0) (some 0) = some 0 ∧
      (⟨1, fun _ => 0, Nat.add, 0⟩ : SegmentTree Nat).queryCnt (some 0) (some 0) =
        some (0, 1) :=
  C7_empty_range ⟨1, fun _ => 0, Nat.add, 0⟩ 0 rfl (Nat.zero_le 1)

/-- C8 counterexample: the claim says an omitted `right` defaults to
`n_logical`; it actually defaults to the capacity.  On a tree of requested
size `3` (capacity `4`) whose padding leaf was set to `100` by a *successful*
`update(3, 100)`, `query(None, None)` returns `100` while
`query(Some 0, Some 3)` (the claimed equivalent, `n_logical = 3`) returns
`0`. -/
theorem C8_cex :
    (((SegmentTree.new 3 Nat.add 0).update 3 100).getD (SegmentTree.new 3 Nat.add 0)).query
        none none = some 100 ∧
      (((SegmentTree.new 3 Nat.add 0).update 3 100).getD (SegmentTree.new 3 Nat.add 0)).query
        (some 0) (some 3) = some 0 := by
  have hn : (SegmentTree.new 3 Nat.add 0).n = 4 := by simp [new, nextPow2]
  have hupd : (SegmentTree.new 3 Nat.add 0).update 3 100 =
      some { SegmentTree.new 3 Nat.add 0 with
             node := updateLoop Nat.add (Function.update (fun _ => 0) 7 100) 7 } := by
    rw [SegmentTree.update, if_pos (by omega)]
    rw [hn]
    simp [new, nextPow2]
  rw [hupd]
  simp only [Option.getD_some]
  constructor
  · simp [query, queryLoop, updateLoop, Function.update_apply, new, nextPow2]
  · simp [query, queryLoop, updateLoop, Function.update_apply, new, nextPow2]

/-- C8 amended: an omitted `left` defaults to `0` and an omitted `right`
defaults to the *capacity* `t.n` (not `n_logical`); on a tree fresh from
`from_slice` with a lawful pair the two agree, since the padding leaves hold
the identity: `query(None, None) = query(Some 0, Some |s|)`. -/
theorem C8_defaults (t : SegmentTree T) (lo ro : Option Nat) (s : List T)
    (op : T → T → T) (idv : T) (hassoc : AssocOp op) (hid : IsIdentity op idv) :
    t.query none ro = t.query (some 0) ro ∧
      t.query lo none = t.query lo (some t.n) ∧
      (from_slice s op idv).query none none =
        (from_slice s op idv).query (some 0) (some s.length) := by
  refine ⟨rfl, rfl, ?_⟩
  have hidl : ∀ x, op idv x = x := fun x => (hid x).1
  have hidr : ∀ x, op x idv = x := fun x => (hid x).2
  have hh := from_slice_heapInv s op idv
  have hq1 := query_eq_segFold (t := from_slice s op idv) hassoc hidl hidr hh
    (nextPow2_pos s.length) (Nat.zero_le (nextPow2 s.length)) (le_refl (nextPow2 s.length))
  have hq2 := query_eq_segFold (t := from_slice s op idv) hassoc hidl hidr hh
    (nextPow2_pos s.length) (Nat.zero_le s.length) (le_nextPow2 s.length)
  have hdef : (from_slice s op idv).query none none =
      (from_slice s op idv).query (some 0) (some (from_slice s op idv).n) := rfl
  rw [hdef, from_slice_n, hq1, hq2, from_slice_op, from_slice_id, from_slice_n]
  have hsplit := segFold_concat op idv (from_slice s op idv).node hassoc hidr
    (show 0 + nextPow2 s.length ≤ s.length + nextPow2 s.length by omega)
    (show s.length + nextPow2 s.length ≤ nextPow2 s.length + nextPow2 s.length by
      have := le_nextPow2 s.length
      omega)
  rw [hsplit]
  rw [segFold_const_of_id op idv _ ((hid idv).1)
    (fun j h1 h2 => from_slice_node_pad s op idv h1), hidr]

/-- Witness for C8 (amended). -/
theorem C8_witness :
    (⟨1, fun _ => 0, Nat.add, 0⟩ : SegmentTree Nat).query none (some 1) =
        (⟨1, fun _ => 0, Nat.add, 0⟩ : SegmentTree Nat).query (some 0) (some 1) ∧
      (⟨1, fun _ => 0, Nat.add, 0⟩ : SegmentTree Nat).query (some 0) none =
        (⟨1, fun _ => 0, Nat.add, 0⟩ : SegmentTree Nat).query (some 0)
          (some (⟨1, fun _ => 0, Nat.add, 0⟩ : SegmentTree Nat).n) ∧
      (SegmentTree.from_slice [1, 2, 3] Nat.add 0).query none none =
        (SegmentTree.from_slice [1, 2, 3] Nat.add 0).query (some 0) (some [1, 2, 3].length) :=
  C8_defaults ⟨1, fun _ => 0, Nat.add, 0⟩ (some 0) (some 1) [1, 2, 3] Nat.add 0
    (fun a b c => Nat.add_assoc a b c)
    (fun x => ⟨Nat.zero_add x, Nat.add_zero x⟩)

/-- C9: a successful `update(i, x)` changes at most the leaf at flat index
`capacity + i` and its ancestors `(capacity+i) >> 1, ..., 1`; every other
buffer entry, and the `n`, `op`, `id` fields, are unchanged. -/
theorem C9_update_frame (t : SegmentTree T) (i : Nat) (x : T) (t' : SegmentTree T)
    (hupd : t.update i x = some t') :
    t'.n = t.n ∧ t'.op = t.op ∧ t'.id = t.id ∧
      ∀ j, j ≠ i + t.n → j ∉ ancList (i + t.n) → t'.node j = t.node j := by
  by_cases hi : i < t.n
  · rw [update_eq_some x hi] at hupd
    injection hupd with hupd
    subst hupd
    refine ⟨rfl, rfl, rfl, ?_⟩
    intro j hj hjanc
    dsimp only
    rw [updateLoop_frame t.op _ _ _ hjanc, Function.update_noteq hj _ _]
  · rw [SegmentTree.update, if_neg hi] at hupd
    cases hupd

/-- Witness for C9 on a one-leaf tree: flat index 3 is untouched. -/
theorem C9_witness :
    (((⟨1, fun _ => 5, Nat.add, 0⟩ : SegmentTree Nat).update 0 7).getD
        ⟨1, fun _ => 5, Nat.add, 0⟩).node 3 =
      (⟨1, fun _ => 5, Nat.add, 0⟩ : SegmentTree Nat).node 3 :=
  (C9_update_frame ⟨1, fun _ => 5, Nat.add, 0⟩ 0 7
    (((⟨1, fun _ => 5, Nat.add, 0⟩ : SegmentTree Nat).update 0 7).getD
      ⟨1, fun _ => 5, Nat.add, 0⟩)
    (by rfl)).2.2.2 3 (by decide) (by rw [ancList]; simp)

/-- C10: on a tree fresh from `from_slice`, indexing any padding position
(`|s| ≤ i <` capacity) succeeds and returns the identity. -/
theorem C10_padding_index (s : List T) (op : T → T → T) (idv : T) (i : Nat)
    (h1 : s.length ≤ i) (h2 : i < (from_slice s op idv).n) :
    (from_slice s op idv).index i = some idv := by
  rw [SegmentTree.index, if_pos h2]
  exact congrArg some (from_slice_pad s op idv h1)

/-- Witness for C10: a 3-element tree has capacity 4; index 3 reads the
identity. -/
theorem C10_witness :
    (SegmentTree.from_slice [1, 2, 3] Nat.add 0).index 3 = some 0 :=
  C10_padding_index [1, 2, 3] Nat.add 0 3 (by decide)
    (by rw [from_slice_n]; simp [nextPow2])

end SegmentTree
